import Mathlib

/-!
Verification development for flatui's `src/font_util.cpp` (HTML-to-sections
conversion). The C++ code is shallowly embedded: C strings become `List Char`
(the null terminator is the end of the list), `std::string` buffers become
`List Char`, `std::vector<HtmlSection>` becomes `List HtmlSection`, and the
recursive Gumbo tree walk becomes a recursive Lean function over an abstract
document-tree type. The Gumbo parser itself is an external collaborator, so
the top-level entry point is embedded as a function of the parsed document
tree rather than of the raw HTML string.

One modelling decision is global: `std::string::back()` on an empty string is
undefined behaviour in C++, but the code in `StartHtmlLine` and
`ShouldTrimLeadingWhitespace` does reach that call with an empty string on
ordinary inputs. The mainstream library implementations the program runs
against return the NUL terminator in that case (`operator[](size())` is
defined to be the null character), and `isspace '\x00'` is false, so the
program behaves as if the read had returned NUL and the surrounding loop or
test had taken its non-whitespace branch. The main embedding therefore models
`back()` as `backChar`, returning `'\x00'` on the empty string. A separate
checked embedding (the `...E` functions, returning `Except Unit`) treats a
`back()` read on an empty string as an explicit error branch, in order to
reason about reachability of that read.
-/

namespace FlatUI

/-! ## Data model -/

/-- Modelled from the spec: a Section record (`HtmlSection` in `font_util.h`,
which is not part of the given sources) holds accumulated, whitespace-
normalized `text` and an optional hyperlink target `link`; an absent link is
the empty string. -/
structure HtmlSection where
  text : List Char
  link : List Char
  deriving DecidableEq, Repr

/-- A default-constructed `HtmlSection()`: both strings empty. -/
def emptySection : HtmlSection := ⟨[], []⟩

instance : Inhabited HtmlSection := ⟨emptySection⟩

/-- Modelled from the spec: the tag identities the Section Builder
distinguishes. All tags the builder treats under its `default` switch cases
are collapsed into `OTHER` plus the structural `HTML`/`HEAD`/`BODY` tags
(also `default` cases), which are kept so real Gumbo document trees can be
written down directly. -/
inductive GumboTag where
  | A | P | H1 | H2 | H3 | H4 | H5 | H6 | HR | BR | HTML | HEAD | BODY | OTHER
  deriving DecidableEq, Repr

/-- Modelled from the spec: a Gumbo document-tree node is an Element (tag,
attribute set, ordered children), a Text node (raw character data), or some
Other node kind (comment, doctype, ...), which the builder ignores. -/
inductive GumboNode where
  | element (tag : GumboTag) (attributes : List (List Char × List Char))
      (children : List GumboNode)
  | text (t : List Char)
  | other
  deriving Repr

/-- Modelled from the spec: `gumbo_get_attribute` looks an attribute up by
name and returns it when present. -/
def gumbo_get_attribute (attrs : List (List Char × List Char))
    (name : List Char) : Option (List Char) :=
  (attrs.find? (fun p => p.1 = name)).map (·.2)

/-! ## Character-level helpers -/

/-- `std::isspace` in the C locale on ASCII: space, tab, newline, vertical
tab, form feed, carriage return. Note `isspace '\x00' = false`. -/
def isspace (c : Char) : Bool :=
  c = ' ' || c = '\t' || c = '\n' || c = '\x0b' || c = '\x0c' || c = '\r'

/-- De facto `std::string::back()`: last character, NUL when empty (see the
file comment on undefined behaviour). -/
def backChar (l : List Char) : Char :=
  l.getLast?.getD '\x00'

/-! ## TrimHtmlWhitespace (font_util.cpp lines 31-54) -/

/-- The main loop of `TrimHtmlWhitespace` (lines 39-52), on the input after
optional leading trimming: copy maximal non-whitespace runs verbatim; stop at
end of input; replace every whitespace run met before the end of input by a
single space. A trailing whitespace run is itself replaced by a single space
(the loop pushes the space after skipping the run, and only then discovers
the end of input). -/
def trimBody : List Char → List Char
  | [] => []
  | c :: t =>
    if isspace c then ' ' :: trimBody (t.dropWhile isspace)
    else c :: trimBody t
termination_by l => l.length
decreasing_by
  · simp only [List.length_cons]
    exact Nat.lt_succ_of_le (List.dropWhile_suffix _).length_le
  · simp

/-- `TrimHtmlWhitespace`: optionally skip leading whitespace, then run the
collapsing loop, appending the produced characters to `out` (the C++ code
appends in place via `push_back`; the embedding returns the final value of
`out`). -/
def TrimHtmlWhitespace (text : List Char) (trim_leading_whitespace : Bool)
    (out : List Char) : List Char :=
  out ++ trimBody (if trim_leading_whitespace then text.dropWhile isspace else text)

/-! ## StartHtmlLine (font_util.cpp lines 58-67) -/

/-- The loop `while (std::isspace(out->back())) out->pop_back();` of
`StartHtmlLine`, under the de facto `backChar` semantics: on an empty buffer
`backChar` yields NUL, which is not whitespace, so the loop stops. -/
def trimTrailing (out : List Char) : List Char :=
  if isspace (backChar out) then trimTrailing out.dropLast else out
termination_by out.length
decreasing_by
  rename_i h
  have hne : out ≠ [] := by
    intro he
    subst he
    simp [backChar, isspace] at h
  have hpos := List.length_pos.mpr hne
  simp only [List.length_dropLast]
  omega

/-- `StartHtmlLine`: trim trailing whitespace from the buffer, then append
the given line-break text `pre` only if the buffer is still non-empty. -/
def StartHtmlLine (pre : List Char) (out : List Char) : List Char :=
  let out' := trimTrailing out
  if out' ≠ [] then out' ++ pre else out'

/-! ## ShouldTrimLeadingWhitespace (font_util.cpp lines 71-77) -/

/-- De facto `s.back()` on a section vector (total via the default section;
every use in the embedded code is guarded by the sequence being non-empty,
cf. the invariants proved below). -/
def backD (s : List HtmlSection) : HtmlSection := s.getLast?.getD emptySection

/-- `ShouldTrimLeadingWhitespace`: trim when at most one section exists;
otherwise look at the last character (de facto `backChar`) of the last
section's text, or of the second-to-last section's text when the last one's
text is empty. -/
def ShouldTrimLeadingWhitespace (s : List HtmlSection) : Bool :=
  if s.length ≤ 1 then true
  else
    let prev_text := if (backD s).text = [] then (s.getD (s.length - 2) emptySection).text
                     else (backD s).text
    isspace (backChar prev_text)

/-! ## GumboTreeToHtmlSections (font_util.cpp lines 79-163) -/

/-- In-place mutation of `s->back()` (for text appends): replace the last
element of the sequence by `f` of it. -/
def modifyBack (f : HtmlSection → HtmlSection) (s : List HtmlSection) :
    List HtmlSection :=
  s.dropLast ++ [f (backD s)]

/-- The `"\n\n"` separator appended for paragraph and horizontal-rule
boundaries. -/
def parBreak : List Char := ['\n', '\n']

/-- The `"\n"` separator appended for heading and line-break boundaries. -/
def lineBreak : List Char := ['\n']

/-- The attribute name `"href"`. -/
def hrefName : List Char := ['h', 'r', 'e', 'f']

/-- Tree-prefix processing (lines 87-107): an anchor starts a new section if
the current one already holds text; paragraph and heading tags run
`StartHtmlLine` with a double newline on the current section's text; all
other tags do nothing. -/
def prefixStep (tag : GumboTag) (s : List HtmlSection) : List HtmlSection :=
  match tag with
  | .A => if (backD s).text ≠ [] then s ++ [emptySection] else s
  | .P | .H1 | .H2 | .H3 | .H4 | .H5 | .H6 =>
      modifyBack (fun sec => { sec with text := StartHtmlLine parBreak sec.text }) s
  | _ => s

/-- Tree-postfix processing (lines 118-149): an anchor records its `href`
attribute (when present) as the link of the section indexed `node_section`
and unconditionally starts a new empty section; `<hr>` and `</p>` append a
double newline to the current section's text; heading ends and `<br>` append
a single newline; all other tags do nothing. -/
def postfixStep (tag : GumboTag) (attrs : List (List Char × List Char))
    (node_section : Nat) (s : List HtmlSection) : List HtmlSection :=
  match tag with
  | .A =>
      let s' := match gumbo_get_attribute attrs hrefName with
                | some v => s.set node_section { s.getD node_section emptySection with link := v }
                | none => s
      s' ++ [emptySection]
  | .HR | .P =>
      modifyBack (fun sec => { sec with text := sec.text ++ parBreak }) s
  | .H1 | .H2 | .H3 | .H4 | .H5 | .H6 | .BR =>
      modifyBack (fun sec => { sec with text := sec.text ++ lineBreak }) s
  | _ => s

mutual
/-- `GumboTreeToHtmlSections`: dispatch on the node kind. An element applies
its tag's prefix action, records `node_section = s.size() - 1`, recurses into
its children in order, and applies its tag's postfix action; a text node
appends its normalized content to the last section's text; other node kinds
are ignored. -/
def GumboTreeToHtmlSections : GumboNode → List HtmlSection → List HtmlSection
  | .element tag attrs children, s =>
      let s1 := prefixStep tag s
      let node_section := s1.length - 1
      let s2 := childrenToHtmlSections children s1
      postfixStep tag attrs node_section s2
  | .text t, s =>
      modifyBack (fun sec =>
        { sec with text := TrimHtmlWhitespace t (ShouldTrimLeadingWhitespace s) sec.text }) s
  | .other, s => s

/-- The children loop of `GumboTreeToHtmlSections` (lines 111-115): process
each child in order, threading the section sequence through. -/
def childrenToHtmlSections : List GumboNode → List HtmlSection → List HtmlSection
  | [], s => s
  | c :: cs, s => childrenToHtmlSections cs (GumboTreeToHtmlSections c s)
end

/-! ## ParseHtml (font_util.cpp lines 165-179) -/

/-- `ParseHtml`, as a function of the parsed document tree (parsing proper is
delegated to the external Gumbo library): seed the sequence with one empty
section, walk the tree, and prune the last section if its text is empty. -/
def ParseHtml (root : GumboNode) : List HtmlSection :=
  let s := GumboTreeToHtmlSections root [emptySection]
  if (backD s).text = [] then s.dropLast else s

/-! ## Checked embedding

The `...E` functions repeat the embedding, but every place where the C++ code
evaluates `std::string::back()` becomes an explicit read that fails on an
empty string. They are used to settle reachability of those reads. -/

/-- Checked `back()` on a string: error on the empty string. -/
def backCharE (l : List Char) : Except Unit Char :=
  match l.getLast? with
  | some c => .ok c
  | none => .error ()

/-- Checked trailing-whitespace loop of `StartHtmlLine`: each iteration reads
`out.back()` before testing it, so an empty buffer (initially or after
popping everything) is an error. -/
def trimTrailingE (out : List Char) : Except Unit (List Char) :=
  match hb : backCharE out with
  | .error e => .error e
  | .ok c => if isspace c then trimTrailingE out.dropLast else .ok out
termination_by out.length
decreasing_by
  have hne : out ≠ [] := by
    intro he
    subst he
    simp [backCharE] at hb
  have hpos := List.length_pos.mpr hne
  simp only [List.length_dropLast]
  omega

/-- Checked `StartHtmlLine`. -/
def StartHtmlLineE (pre : List Char) (out : List Char) : Except Unit (List Char) :=
  match trimTrailingE out with
  | .error e => .error e
  | .ok out' => .ok (if out' ≠ [] then out' ++ pre else out')

/-- Checked `ShouldTrimLeadingWhitespace`: reads `prev_text.back()`, an error
when `prev_text` is empty. -/
def ShouldTrimLeadingWhitespaceE (s : List HtmlSection) : Except Unit Bool :=
  if s.length ≤ 1 then .ok true
  else
    let prev_text := if (backD s).text = [] then (s.getD (s.length - 2) emptySection).text
                     else (backD s).text
    match backCharE prev_text with
    | .error e => .error e
    | .ok c => .ok (isspace c)

/-- Checked prefix step. -/
def prefixStepE (tag : GumboTag) (s : List HtmlSection) :
    Except Unit (List HtmlSection) :=
  match tag with
  | .A => .ok (if (backD s).text ≠ [] then s ++ [emptySection] else s)
  | .P | .H1 | .H2 | .H3 | .H4 | .H5 | .H6 =>
      match StartHtmlLineE parBreak (backD s).text with
      | .error e => .error e
      | .ok t => .ok (modifyBack (fun sec => { sec with text := t }) s)
  | _ => .ok s

mutual
/-- Checked tree walk (the postfix step performs no string `back()` reads, so
it is reused as is). -/
def GumboTreeToHtmlSectionsE : GumboNode → List HtmlSection →
    Except Unit (List HtmlSection)
  | .element tag attrs children, s =>
      match prefixStepE tag s with
      | .error e => .error e
      | .ok s1 =>
          let node_section := s1.length - 1
          match childrenToHtmlSectionsE children s1 with
          | .error e => .error e
          | .ok s2 => .ok (postfixStep tag attrs node_section s2)
  | .text t, s =>
      match ShouldTrimLeadingWhitespaceE s with
      | .error e => .error e
      | .ok b => .ok (modifyBack (fun sec =>
          { sec with text := TrimHtmlWhitespace t b sec.text }) s)
  | .other, s => .ok s

/-- Checked children loop. -/
def childrenToHtmlSectionsE : List GumboNode → List HtmlSection →
    Except Unit (List HtmlSection)
  | [], s => .ok s
  | c :: cs, s =>
      match GumboTreeToHtmlSectionsE c s with
      | .error e => .error e
      | .ok s' => childrenToHtmlSectionsE cs s'
end

/-- Checked `ParseHtml`. -/
def ParseHtmlE (root : GumboNode) : Except Unit (List HtmlSection) :=
  match GumboTreeToHtmlSectionsE root [emptySection] with
  | .error e => .error e
  | .ok s => .ok (if (backD s).text = [] then s.dropLast else s)

/-! ## Spec-side definitions

These definitions follow the specification's words (not the code); they are
compared against the embedded code by the theorems below. -/

mutual
/-- Spec-side: the number of new Sections the claim says the walk appends
while processing a node - one at anchor start when the current last Section's
text is non-empty, one unconditionally at anchor end, none anywhere else.
The intermediate section sequences are recomputed with the embedded walk,
since whether an anchor-start push happens depends on the state reached. -/
def newSections : GumboNode → List HtmlSection → Nat
  | .element tag _ children, s =>
      (if tag = .A ∧ (backD s).text ≠ [] then 1 else 0)
        + newSectionsList children (prefixStep tag s)
        + (if tag = .A then 1 else 0)
  | .text _, _ => 0
  | .other, _ => 0

/-- Spec-side: `newSections` summed over a child list, threading the section
sequence through the embedded walk. -/
def newSectionsList : List GumboNode → List HtmlSection → Nat
  | [], _ => 0
  | c :: cs, s => newSections c s + newSectionsList cs (GumboTreeToHtmlSections c s)
end

/-- Spec-side: tags on which both the tree-prefix and the tree-postfix switch
of the builder fall into their `default` cases. -/
def inertTag (tag : GumboTag) : Bool :=
  match tag with
  | .A | .P | .H1 | .H2 | .H3 | .H4 | .H5 | .H6 | .HR | .BR => false
  | _ => true

mutual
/-- Spec-side: a tree with no text content and no section-affecting element
(no anchor, paragraph, heading, horizontal rule or line break). -/
def inert : GumboNode → Bool
  | .element tag _ children => inertTag tag && inertList children
  | .text _ => false
  | .other => true

/-- Spec-side: `inert` over a child list. -/
def inertList : List GumboNode → Bool
  | [] => true
  | c :: cs => inert c && inertList cs
end

mutual
/-- Spec-side: whether a tree contains any text node at all ("text content"
in the claims' sense). -/
def containsText : GumboNode → Bool
  | .element _ _ children => containsTextList children
  | .text _ => true
  | .other => false

/-- Spec-side: `containsText` over a child list. -/
def containsTextList : List GumboNode → Bool
  | [] => false
  | c :: cs => containsText c || containsTextList cs
end

mutual
/-- Spec-side: a tree containing no anchor element. -/
def anchorFree : GumboNode → Bool
  | .element tag _ children => !(tag = .A : Bool) && anchorFreeList children
  | .text _ => true
  | .other => true

/-- Spec-side: `anchorFree` over a child list. -/
def anchorFreeList : List GumboNode → Bool
  | [] => true
  | c :: cs => anchorFree c && anchorFreeList cs
end

/-- Spec-side: remove all trailing whitespace from a string. -/
def removeTrailingWs (t : List Char) : List Char :=
  (t.reverse.dropWhile isspace).reverse

/-- Spec-side: already-normalized text in the idempotence claim's sense -
every whitespace character is a plain space and is not followed by another
whitespace character (every whitespace run is a single space). -/
def normalizedRun : List Char → Bool
  | [] => true
  | [c] => !isspace c || (c = ' ')
  | c :: d :: t => (!isspace c || ((c = ' ' : Bool) && !isspace d)) && normalizedRun (d :: t)

/-- Spec-side: normalized text - no leading whitespace, and every whitespace
run already a single space. -/
def NormalizedText (t : List Char) : Bool :=
  (match t with
   | [] => true
   | c :: _ => !isspace c) && normalizedRun t

/-! ## Concrete document trees used in the claims -/

/-- The document tree Gumbo produces for the input `<p>hi</p>`: the html
element wrapping an empty head and a body containing the paragraph. -/
def pHiTree : GumboNode :=
  .element .HTML [] [
    .element .HEAD [] [],
    .element .BODY [] [.element .P [] [.text ['h', 'i']]]]

/-- The document tree Gumbo produces for the empty input string: html with an
empty head and an empty body. -/
def emptyInputTree : GumboNode :=
  .element .HTML [] [.element .HEAD [] [], .element .BODY [] []]

/-- The document tree Gumbo produces for `<p></p>`: html with an empty head
and a body containing an empty paragraph element. -/
def pEmptyTree : GumboNode :=
  .element .HTML [] [.element .HEAD [] [], .element .BODY [] [.element .P [] []]]

/-- The document tree described in the claim about
`<p>Hello <a href="http://x">world</a>!</p>`: a paragraph element containing
the text `"Hello "`, an anchor with an `href` attribute `"http://x"`
containing the text `"world"`, and then the text `"!"`. -/
def anchorExampleTree : GumboNode :=
  .element .P [] [
    .text "Hello ".toList,
    .element .A [("href".toList, "http://x".toList)] [.text "world".toList],
    .text "!".toList]

/-- Induction principle for the nested inductive `GumboNode`, giving the
inductive hypothesis for every member of an element's child list. -/
def GumboNode.recOnMem {motive : GumboNode → Prop}
    (he : ∀ tag attrs children,
      (∀ c ∈ children, motive c) → motive (.element tag attrs children))
    (ht : ∀ t, motive (.text t))
    (ho : motive .other) : ∀ n, motive n
  | .element tag attrs children =>
      he tag attrs children (fun c hc => GumboNode.recOnMem he ht ho c)
  | .text t => ht t
  | .other => ho
termination_by n => sizeOf n
decreasing_by
  have h1 := List.sizeOf_lt_of_mem hc
  simp only [GumboNode.element.sizeOf_spec]
  omega

/-! ## Helper lemmas: the section vector -/

theorem backD_concat (l : List HtmlSection) (x : HtmlSection) : backD (l ++ [x]) = x := by
  simp [backD, List.getLast?_concat]

theorem modifyBack_ne_nil (f : HtmlSection → HtmlSection) (s : List HtmlSection) :
    modifyBack f s ≠ [] := by
  simp [modifyBack]

theorem length_modifyBack (f : HtmlSection → HtmlSection) (s : List HtmlSection)
    (h : s ≠ []) : (modifyBack f s).length = s.length := by
  have := List.length_pos.mpr h
  simp only [modifyBack, List.length_append, List.length_dropLast, List.length_singleton]
  omega

theorem getElem?_modifyBack (f : HtmlSection → HtmlSection) (s : List HtmlSection)
    (i : Nat) (h : i + 1 < s.length) : (modifyBack f s)[i]? = s[i]? := by
  rw [modifyBack, List.getElem?_append, if_pos, List.getElem?_dropLast, if_pos]
  · omega
  · simp only [List.length_dropLast]
    omega

theorem length_prefixStep (tag : GumboTag) (s : List HtmlSection) (h : s ≠ []) :
    (prefixStep tag s).length
      = s.length + (if tag = .A ∧ (backD s).text ≠ [] then 1 else 0) := by
  cases tag <;>
    first
    | ((by_cases hc : (backD s).text = [] <;> simp [prefixStep, hc]) ; done)
    | (simp [prefixStep, length_modifyBack _ _ h] ; done)
    | simp [prefixStep]

theorem prefixStep_ne_nil (tag : GumboTag) (s : List HtmlSection) (h : s ≠ []) :
    prefixStep tag s ≠ [] := by
  cases tag <;>
    first
    | ((by_cases hc : (backD s).text = [] <;> simp [prefixStep, hc, h]) ; done)
    | (simp [prefixStep, modifyBack_ne_nil, h] ; done)
    | simp [prefixStep, h]

theorem getElem?_prefixStep (tag : GumboTag) (s : List HtmlSection) (i : Nat)
    (h : i + 1 < s.length) : (prefixStep tag s)[i]? = s[i]? := by
  have hlt : i < s.length := Nat.lt_of_succ_lt h
  cases tag <;>
    first
    | ((by_cases hc : (backD s).text = [] <;>
        simp [prefixStep, hc, List.getElem?_append, hlt]) ; done)
    | (exact getElem?_modifyBack
        (fun sec => { sec with text := StartHtmlLine parBreak sec.text }) s i h)
    | simp [prefixStep]

theorem length_postfixStep (tag : GumboTag) (attrs : List (List Char × List Char))
    (ns : Nat) (s : List HtmlSection) (h : s ≠ []) :
    (postfixStep tag attrs ns s).length = s.length + (if tag = .A then 1 else 0) := by
  cases tag <;>
    first
    | ((cases hg : gumbo_get_attribute attrs hrefName <;>
        simp [postfixStep, hg, List.length_set]) ; done)
    | (simp [postfixStep, length_modifyBack _ _ h] ; done)
    | simp [postfixStep]

theorem postfixStep_ne_nil (tag : GumboTag) (attrs : List (List Char × List Char))
    (ns : Nat) (s : List HtmlSection) (h : s ≠ []) :
    postfixStep tag attrs ns s ≠ [] := by
  cases tag <;>
    first
    | ((cases gumbo_get_attribute attrs hrefName <;> simp [postfixStep]) ; done)
    | (simp [postfixStep, modifyBack_ne_nil, h] ; done)
    | simp [postfixStep, h]

theorem getElem?_postfixStep (tag : GumboTag) (attrs : List (List Char × List Char))
    (ns : Nat) (s : List HtmlSection) (i : Nat)
    (h1 : i + 1 < s.length) (h2 : i ≠ ns) :
    (postfixStep tag attrs ns s)[i]? = s[i]? := by
  have hlt : i < s.length := Nat.lt_of_succ_lt h1
  cases tag <;>
    first
    | ((cases hg : gumbo_get_attribute attrs hrefName <;>
        simp [postfixStep, hg, List.getElem?_append, List.length_set, hlt,
          List.getElem?_set_ne (Ne.symm h2)]) ; done)
    | (exact getElem?_modifyBack
        (fun sec => { sec with text := sec.text ++ parBreak }) s i h1)
    | (exact getElem?_modifyBack
        (fun sec => { sec with text := sec.text ++ lineBreak }) s i h1)
    | simp [postfixStep]

/-! ## Helper lemmas: the master walk invariant -/

theorem walkList_master_aux (cs : List GumboNode)
    (IH : ∀ c ∈ cs, ∀ s, s ≠ [] →
      GumboTreeToHtmlSections c s ≠ [] ∧
      (GumboTreeToHtmlSections c s).length = s.length + newSections c s ∧
      ∀ i, i + 1 < s.length → (GumboTreeToHtmlSections c s)[i]? = s[i]?) :
    ∀ s, s ≠ [] →
      childrenToHtmlSections cs s ≠ [] ∧
      (childrenToHtmlSections cs s).length = s.length + newSectionsList cs s ∧
      ∀ i, i + 1 < s.length → (childrenToHtmlSections cs s)[i]? = s[i]? := by
  induction cs with
  | nil =>
      intro s h
      exact ⟨h, by simp [childrenToHtmlSections, newSectionsList], fun i _ => rfl⟩
  | cons c cs ih =>
      intro s h
      obtain ⟨h1, h2, h3⟩ := IH c (by simp) s h
      obtain ⟨g1, g2, g3⟩ := ih (fun c' hc' => IH c' (by simp [hc'])) _ h1
      refine ⟨g1, ?_, ?_⟩
      · show (childrenToHtmlSections cs (GumboTreeToHtmlSections c s)).length = _
        rw [g2, h2, newSectionsList]
        omega
      · intro i hi
        show (childrenToHtmlSections cs (GumboTreeToHtmlSections c s))[i]? = _
        rw [g3 i (by omega), h3 i hi]

/-! ## Helper lemmas: strings -/

theorem backChar_eq_getLast (l : List Char) (h : l ≠ []) : backChar l = l.getLast h := by
  simp [backChar, List.getLast?_eq_getLast _ h]

theorem backChar_cons (c : Char) (l : List Char) (h : l ≠ []) :
    backChar (c :: l) = backChar l := by
  rw [backChar_eq_getLast _ (List.cons_ne_nil c l), backChar_eq_getLast _ h,
    List.getLast_cons h]

theorem backChar_append (l₁ l₂ : List Char) (h : l₂ ≠ []) :
    backChar (l₁ ++ l₂) = backChar l₂ := by
  rw [backChar, backChar, List.getLast?_append, List.getLast?_eq_getLast _ h]
  rfl

theorem trimBody_nil : trimBody [] = [] := by
  rw [trimBody]

theorem trimBody_cons (c : Char) (t : List Char) :
    trimBody (c :: t)
      = if isspace c then ' ' :: trimBody (t.dropWhile isspace) else c :: trimBody t := by
  rw [trimBody]

theorem trimBody_all_ws (ws : List Char) (hne : ws ≠ [])
    (hall : ∀ c ∈ ws, isspace c = true) : trimBody ws = [' '] := by
  cases ws with
  | nil => exact absurd rfl hne
  | cons w ws' =>
      rw [trimBody_cons, if_pos (hall w (List.mem_cons_self w ws'))]
      have hd : ws'.dropWhile isspace = [] :=
        List.dropWhile_eq_nil_iff.mpr (fun x hx => hall x (List.mem_cons_of_mem _ hx))
      rw [hd, trimBody_nil]

theorem trimBody_append_ws_aux : ∀ (n : Nat) (u : List Char), u.length ≤ n → u ≠ [] →
    isspace (backChar u) = false → ∀ ws, ws ≠ [] → (∀ c ∈ ws, isspace c = true) →
    trimBody (u ++ ws) = trimBody u ++ [' '] := by
  intro n
  induction n with
  | zero =>
      intro u hlen hne
      exact absurd (List.length_eq_zero.mp (Nat.le_zero.mp hlen)) hne
  | succ n ih =>
      intro u hlen hne hlast ws hws hall
      cases u with
      | nil => exact absurd rfl hne
      | cons c u' =>
          by_cases hc : isspace c = true
          · have hu' : u' ≠ [] := by
              intro he
              subst he
              simp [backChar] at hlast
              rw [hlast] at hc
              cases hc
            have hlast' : isspace (backChar u') = false := by
              rwa [backChar_cons c u' hu'] at hlast
            have hgl : isspace (u'.getLast hu') = false := by
              rwa [backChar_eq_getLast u' hu'] at hlast'
            have hv_ne : u'.dropWhile isspace ≠ [] := by
              intro hdrop
              have := List.dropWhile_eq_nil_iff.mp hdrop (u'.getLast hu') (List.getLast_mem hu')
              rw [this] at hgl
              cases hgl
            have hsplit : (u' ++ ws).dropWhile isspace = u'.dropWhile isspace ++ ws := by
              rw [List.dropWhile_append, if_neg]
              intro hy
              exact hv_ne (List.isEmpty_iff.mp hy)
            have hv_last : isspace (backChar (u'.dropWhile isspace)) = false := by
              have hdecomp := List.takeWhile_append_dropWhile isspace u'
              have := backChar_append (u'.takeWhile isspace) (u'.dropWhile isspace) hv_ne
              rw [hdecomp] at this
              rwa [this] at hlast'
            have hv_len : (u'.dropWhile isspace).length ≤ n := by
              have h1 := (List.dropWhile_suffix (l := u') isspace).length_le
              simp only [List.length_cons] at hlen
              omega
            rw [List.cons_append, trimBody_cons, if_pos hc, hsplit,
              ih _ hv_len hv_ne hv_last ws hws hall, trimBody_cons, if_pos hc]
            rfl
          · cases u' with
            | nil =>
                rw [List.cons_append, trimBody_cons, if_neg hc, List.nil_append,
                  trimBody_all_ws ws hws hall, trimBody_cons, if_neg hc, trimBody_nil]
                rfl
            | cons d u'' =>
                have hu' : (d :: u'') ≠ [] := List.cons_ne_nil d u''
                have hlast' : isspace (backChar (d :: u'')) = false := by
                  rwa [backChar_cons c (d :: u'') hu'] at hlast
                have hlen' : (d :: u'').length ≤ n := by
                  simp only [List.length_cons] at hlen ⊢
                  omega
                rw [List.cons_append, trimBody_cons, if_neg hc,
                  ih _ hlen' hu' hlast' ws hws hall]
                conv_rhs => rw [trimBody_cons, if_neg hc]
                rfl

theorem trimBody_append_ws (u : List Char) (hne : u ≠ [])
    (hlast : isspace (backChar u) = false) (ws : List Char) (hws : ws ≠ [])
    (hall : ∀ c ∈ ws, isspace c = true) :
    trimBody (u ++ ws) = trimBody u ++ [' '] :=
  trimBody_append_ws_aux u.length u le_rfl hne hlast ws hws hall

theorem trimTrailing_eq : ∀ out : List Char, trimTrailing out = removeTrailingWs out := by
  intro out
  generalize hn : out.length = n
  induction n using Nat.strong_induction_on generalizing out with
  | _ n ih =>
      subst hn
      rw [trimTrailing]
      by_cases hsp : isspace (backChar out) = true
      · have hne : out ≠ [] := by
          intro he
          subst he
          simp [backChar, isspace] at hsp
        have hlt : out.dropLast.length < out.length := by
          have := List.length_pos.mpr hne
          simp only [List.length_dropLast]
          omega
        rw [if_pos hsp, ih out.dropLast.length hlt out.dropLast rfl]
        show removeTrailingWs out.dropLast = removeTrailingWs out
        have hdecomp := List.dropLast_append_getLast hne
        rw [removeTrailingWs, removeTrailingWs]
        conv_rhs => rw [← hdecomp]
        rw [List.reverse_append, List.reverse_singleton, List.singleton_append,
          List.dropWhile_cons, if_pos (by rwa [backChar_eq_getLast out hne] at hsp)]
      · rw [if_neg hsp]
        cases hout : out with
        | nil => rfl
        | cons a as =>
            rw [← hout]
            have hne : out ≠ [] := by
              rw [hout]
              exact List.cons_ne_nil a as
            rw [removeTrailingWs]
            have hrev_ne : out.reverse ≠ [] := by
              simpa [List.reverse_eq_nil_iff] using hne
            have hhead : out.reverse.head? = some (backChar out) := by
              rw [List.head?_reverse, backChar_eq_getLast out hne,
                List.getLast?_eq_getLast _ hne]
            cases hrv : out.reverse with
            | nil => exact absurd hrv hrev_ne
            | cons b bs =>
                rw [hrv] at hhead
                simp only [List.head?_cons, Option.some.injEq] at hhead
                rw [List.dropWhile_cons, if_neg (by rw [hhead]; exact hsp), ← hrv,
                  List.reverse_reverse]

theorem walk_master : ∀ n, ∀ s, s ≠ [] →
    GumboTreeToHtmlSections n s ≠ [] ∧
    (GumboTreeToHtmlSections n s).length = s.length + newSections n s ∧
    ∀ i, i + 1 < s.length → (GumboTreeToHtmlSections n s)[i]? = s[i]? := by
  intro n
  induction n using GumboNode.recOnMem with
  | he tag attrs children IH =>
      intro s h
      have hwalk : GumboTreeToHtmlSections (.element tag attrs children) s
          = postfixStep tag attrs ((prefixStep tag s).length - 1)
              (childrenToHtmlSections children (prefixStep tag s)) := rfl
      have hp1 : prefixStep tag s ≠ [] := prefixStep_ne_nil tag s h
      obtain ⟨g1, g2, g3⟩ := walkList_master_aux children IH (prefixStep tag s) hp1
      have hlen1 := length_prefixStep tag s h
      refine ⟨?_, ?_, ?_⟩
      · rw [hwalk]
        exact postfixStep_ne_nil _ _ _ _ g1
      · have hn : newSections (.element tag attrs children) s
            = (if tag = .A ∧ (backD s).text ≠ [] then 1 else 0)
              + newSectionsList children (prefixStep tag s)
              + (if tag = .A then 1 else 0) := rfl
        rw [hwalk, length_postfixStep _ _ _ _ g1, g2, hlen1, hn]
        omega
      · intro i hi
        have hp1pos := List.length_pos.mpr hp1
        have hspos := List.length_pos.mpr h
        rw [hwalk, getElem?_postfixStep _ _ _ _ i (by omega) (by omega),
          g3 i (by omega), getElem?_prefixStep tag s i hi]
  | ht t =>
      intro s h
      have hw : GumboTreeToHtmlSections (.text t) s
          = modifyBack (fun sec =>
              { sec with
                text := TrimHtmlWhitespace t (ShouldTrimLeadingWhitespace s) sec.text }) s := rfl
      have hn : newSections (.text t) s = 0 := rfl
      refine ⟨?_, ?_, ?_⟩
      · rw [hw]
        exact modifyBack_ne_nil _ s
      · rw [hw, length_modifyBack _ _ h, hn]
        omega
      · intro i hi
        rw [hw]
        exact getElem?_modifyBack _ _ _ hi
  | ho =>
      intro s h
      have hw : GumboTreeToHtmlSections .other s = s := rfl
      have hn : newSections .other s = 0 := rfl
      rw [hw, hn]
      exact ⟨h, by omega, fun i _ => rfl⟩

/-! ## Helper lemmas: normalized text -/

theorem normalizedRun_tail (c : Char) (t : List Char)
    (h : normalizedRun (c :: t) = true) : normalizedRun t = true := by
  cases t with
  | nil => rfl
  | cons d t' =>
      have he : normalizedRun (c :: d :: t')
          = ((!isspace c || ((c = ' ' : Bool) && !isspace d)) && normalizedRun (d :: t')) := rfl
      rw [he, Bool.and_eq_true] at h
      exact h.2

theorem trimBody_normalized : ∀ t, normalizedRun t = true → trimBody t = t := by
  intro t
  induction t with
  | nil => intro _ ; exact trimBody_nil
  | cons c t' ih =>
      intro h
      by_cases hc : isspace c = true
      · cases t' with
        | nil =>
            have he : normalizedRun [c] = (!isspace c || (c = ' ' : Bool)) := rfl
            rw [he, hc] at h
            simp only [Bool.not_true, Bool.false_or, decide_eq_true_eq] at h
            rw [trimBody_cons, if_pos hc, h, List.dropWhile_nil, trimBody_nil]
        | cons d t'' =>
            have he : normalizedRun (c :: d :: t'')
                = ((!isspace c || ((c = ' ' : Bool) && !isspace d))
                    && normalizedRun (d :: t'')) := rfl
            rw [he, Bool.and_eq_true] at h
            obtain ⟨h1, h2⟩ := h
            rw [hc] at h1
            simp only [Bool.not_true, Bool.false_or, Bool.and_eq_true,
              decide_eq_true_eq, Bool.not_eq_true] at h1
            obtain ⟨hceq, hd⟩ := h1
            have hd' : isspace d = false := by
              revert hd
              cases isspace d <;> simp
            rw [trimBody_cons, if_pos hc, List.dropWhile_cons, if_neg (by simp [hd']),
              ih h2, hceq]
      · rw [trimBody_cons, if_neg hc, ih (normalizedRun_tail c t' h)]

/-! ## Claim theorems -/

/-- Claim C1, counterexample: `TrimHtmlWhitespace` does not preserve trailing
whitespace verbatim - on `"  hello   world  "` with leading trimming and an
empty buffer the result is `"hello world "` (one trailing space), not the
claimed `"hello world  "`. -/
theorem trimHtml_trailing_not_verbatim :
    TrimHtmlWhitespace "  hello   world  ".toList true [] ≠ "hello world  ".toList := by
  simp [TrimHtmlWhitespace, trimBody, isspace]

/-- Claim C1, amended: the normalizer replaces a nonempty trailing whitespace
run by a single space (it neither preserves it verbatim nor removes it): for
every input with a nonempty trailing whitespace run and a nonempty remainder,
the output equals the output on the input with the trailing run removed,
followed by exactly one space. -/
theorem trimHtml_trailing_run_single_space (t : List Char)
    (h1 : removeTrailingWs t ≠ []) (h2 : removeTrailingWs t ≠ t) :
    TrimHtmlWhitespace t true []
      = TrimHtmlWhitespace (removeTrailingWs t) true [] ++ [' '] := by
  have hdecomp : t = removeTrailingWs t ++ (t.reverse.takeWhile isspace).reverse := by
    conv_lhs => rw [← List.reverse_reverse t,
      ← List.takeWhile_append_dropWhile (p := isspace) (l := t.reverse)]
    rw [List.reverse_append]
    rfl
  have hws_ne : (t.reverse.takeWhile isspace).reverse ≠ [] := by
    intro he
    rw [he, List.append_nil] at hdecomp
    exact h2 hdecomp.symm
  have hws_all : ∀ c ∈ (t.reverse.takeWhile isspace).reverse, isspace c = true :=
    fun c hc => List.mem_takeWhile_imp (List.mem_reverse.mp hc)
  have hcore_last : isspace (backChar (removeTrailingWs t)) = false := by
    have hdw_ne : t.reverse.dropWhile isspace ≠ [] := by
      intro he
      apply h1
      rw [removeTrailingWs, he]
      rfl
    have h3 := List.head_dropWhile_not isspace t.reverse hdw_ne
    rw [backChar_eq_getLast _ h1]
    have h4 : (removeTrailingWs t).getLast h1
        = (t.reverse.dropWhile isspace).head hdw_ne := by
      have h5 := List.getLast?_reverse (t.reverse.dropWhile isspace)
      rw [show (t.reverse.dropWhile isspace).reverse = removeTrailingWs t from rfl] at h5
      rw [List.getLast?_eq_getLast _ h1, List.head?_eq_head hdw_ne] at h5
      exact Option.some.inj h5
    rw [h4]
    exact h3
  have hu_ne : (removeTrailingWs t).dropWhile isspace ≠ [] := by
    intro he
    have := List.dropWhile_eq_nil_iff.mp he ((removeTrailingWs t).getLast h1)
      (List.getLast_mem h1)
    rw [backChar_eq_getLast _ h1] at hcore_last
    rw [this] at hcore_last
    cases hcore_last
  have hu_last : isspace (backChar ((removeTrailingWs t).dropWhile isspace)) = false := by
    have hd := List.takeWhile_append_dropWhile (p := isspace) (l := removeTrailingWs t)
    have hb := backChar_append ((removeTrailingWs t).takeWhile isspace)
      ((removeTrailingWs t).dropWhile isspace) hu_ne
    rw [hd] at hb
    rwa [hb] at hcore_last
  have hsplit : t.dropWhile isspace
      = (removeTrailingWs t).dropWhile isspace ++ (t.reverse.takeWhile isspace).reverse := by
    conv_lhs => rw [hdecomp]
    rw [List.dropWhile_append, if_neg]
    intro hy
    exact hu_ne (List.isEmpty_iff.mp hy)
  rw [TrimHtmlWhitespace, TrimHtmlWhitespace]
  simp only [if_pos rfl, List.nil_append]
  rw [if_pos trivial, if_pos trivial] at *
  rw [hsplit]
  exact trimBody_append_ws _ hu_ne hu_last _ hws_ne hws_all

/-- Claim C1, witness: the amended statement applied to the concrete input
`"  hello   world  "`. -/
theorem trimHtml_trailing_run_single_space_witness :
    TrimHtmlWhitespace "  hello   world  ".toList true []
      = TrimHtmlWhitespace (removeTrailingWs "  hello   world  ".toList) true [] ++ [' '] :=
  trimHtml_trailing_run_single_space _ (by decide) (by decide)

/-- Claim C2: the checked embedding, in which reading the last character of
an empty string buffer is the error branch, reaches that branch already on
the document tree for `<p>hi</p>`: the paragraph's prefix action calls
`StartHtmlLine` on the still-empty section text, and the trailing-whitespace
loop's first iteration evaluates `back()` on the empty buffer. -/
theorem startHtmlLine_empty_back_reachable : ParseHtmlE pHiTree = .error () := by
  have h1 : trimTrailingE [] = .error () := by
    rw [trimTrailingE]
    rfl
  have h2 : StartHtmlLineE parBreak [] = .error () := by
    rw [StartHtmlLineE, h1]
  have h3 : prefixStepE .P [emptySection] = .error () := by
    have hb : (backD [emptySection]).text = ([] : List Char) := rfl
    simp only [prefixStepE, hb, h2]
  have h4 : GumboTreeToHtmlSectionsE (.element .P [] [.text ['h', 'i']]) [emptySection]
      = .error () := by
    simp only [GumboTreeToHtmlSectionsE, h3]
  have h5 : childrenToHtmlSectionsE [.element .P [] [.text ['h', 'i']]] [emptySection]
      = .error () := by
    simp only [childrenToHtmlSectionsE, h4]
  have h6 : GumboTreeToHtmlSectionsE (.element .BODY [] [.element .P [] [.text ['h', 'i']]])
      [emptySection] = .error () := by
    have hp : prefixStepE .BODY [emptySection] = .ok [emptySection] := rfl
    simp only [GumboTreeToHtmlSectionsE, hp, h5]
  have h7 : GumboTreeToHtmlSectionsE (.element .HEAD [] []) [emptySection]
      = .ok [emptySection] := by
    have hp : prefixStepE .HEAD [emptySection] = .ok [emptySection] := rfl
    have hc : childrenToHtmlSectionsE [] [emptySection] = .ok [emptySection] := by
      rw [childrenToHtmlSectionsE]
    have hpost : postfixStep .HEAD [] ((1 : Nat) - 1) [emptySection] = [emptySection] := rfl
    simp only [GumboTreeToHtmlSectionsE, hp, hc, List.length_cons, List.length_nil, hpost]
  have h8 : childrenToHtmlSectionsE
      [.element .HEAD [] [], .element .BODY [] [.element .P [] [.text ['h', 'i']]]]
      [emptySection] = .error () := by
    simp only [childrenToHtmlSectionsE, h7, h6]
  have h9 : GumboTreeToHtmlSectionsE pHiTree [emptySection] = .error () := by
    have hp : prefixStepE .HTML [emptySection] = .ok [emptySection] := rfl
    simp only [pHiTree, GumboTreeToHtmlSectionsE, hp, h8]
  rw [ParseHtmlE, h9]

/-- Claim C4: on the document tree for
`<p>Hello <a href="http://x">world</a>!</p>`, `ParseHtml` returns exactly
three sections in order: text `"Hello "` with no link, text `"world"` with
link `"http://x"`, and text `"!\n\n"` with no link. -/
theorem parseHtml_anchor_example :
    ParseHtml anchorExampleTree
      = [⟨"Hello ".toList, []⟩, ⟨"world".toList, "http://x".toList⟩,
         ⟨"!\n\n".toList, []⟩] := by
  simp [ParseHtml, anchorExampleTree, GumboTreeToHtmlSections, childrenToHtmlSections,
    prefixStep, postfixStep, modifyBack, backD, ShouldTrimLeadingWhitespace,
    TrimHtmlWhitespace, trimBody, isspace, backChar, StartHtmlLine, trimTrailing,
    gumbo_get_attribute, hrefName, parBreak, lineBreak, emptySection]

/-- Claim C5: for every non-empty section sequence,
`ShouldTrimLeadingWhitespace` returns true exactly when the sequence has at
most one section, or else when the last character of the relevant text is
whitespace - the relevant text being the last section's text when that text
is non-empty and otherwise the second-to-last section's text. -/
theorem shouldTrimLeadingWhitespace_spec (s : List HtmlSection) (h : s ≠ []) :
    ShouldTrimLeadingWhitespace s = true ↔
      (s.length ≤ 1 ∨
        (if (s.getLast h).text = [] then (s.getD (s.length - 2) emptySection).text
         else (s.getLast h).text).getLast?.any isspace = true) := by
  have hback : backD s = s.getLast h := by
    simp [backD, List.getLast?_eq_getLast _ h]
  rw [ShouldTrimLeadingWhitespace]
  by_cases hle : s.length ≤ 1
  · simp [hle]
  · rw [if_neg hle]
    simp only [hback]
    constructor
    · intro hsp
      right
      cases hgl : (if (s.getLast h).text = [] then (s.getD (s.length - 2) emptySection).text
          else (s.getLast h).text).getLast? with
      | none =>
          rw [List.getLast?_eq_none_iff.mp hgl] at hsp
          simp [backChar, isspace] at hsp
      | some c =>
          rw [show backChar (if (s.getLast h).text = []
                then (s.getD (s.length - 2) emptySection).text
                else (s.getLast h).text) = c by rw [backChar, hgl]; rfl] at hsp
          simp [hgl, hsp]
    · intro hor
      cases hor with
      | inl hl => exact absurd hl hle
      | inr hany =>
          cases hgl : (if (s.getLast h).text = [] then (s.getD (s.length - 2) emptySection).text
              else (s.getLast h).text).getLast? with
          | none => rw [hgl] at hany; simp at hany
          | some c =>
              rw [hgl] at hany
              simp only [Option.any_some] at hany
              rw [show backChar (if (s.getLast h).text = []
                    then (s.getD (s.length - 2) emptySection).text
                    else (s.getLast h).text) = c by rw [backChar, hgl]; rfl]
              exact hany

/-- Claim C5, witness: a two-section sequence whose last section has empty
text and whose first section's text ends in a space. -/
theorem shouldTrimLeadingWhitespace_spec_witness :
    ShouldTrimLeadingWhitespace [⟨['a', ' '], []⟩, ⟨[], []⟩] = true ↔
      (([⟨['a', ' '], []⟩, ⟨[], []⟩] : List HtmlSection).length ≤ 1 ∨
        (if (([⟨['a', ' '], []⟩, ⟨[], []⟩] : List HtmlSection).getLast (by simp)).text = []
         then (([⟨['a', ' '], []⟩, ⟨[], []⟩] : List HtmlSection).getD 0 emptySection).text
         else (([⟨['a', ' '], []⟩, ⟨[], []⟩] : List HtmlSection).getLast (by simp)).text
        ).getLast?.any isspace = true) :=
  shouldTrimLeadingWhitespace_spec [⟨['a', ' '], []⟩, ⟨[], []⟩] (by simp)

/-- Claim C7: `StartHtmlLine` removes all trailing whitespace from the buffer
and appends the prefix exactly when the buffer is still non-empty afterwards;
a buffer that was all whitespace is left empty with no prefix appended. -/
theorem startHtmlLine_spec (pre out : List Char) :
    StartHtmlLine pre out
      = (if removeTrailingWs out = [] then [] else removeTrailingWs out ++ pre) := by
  rw [StartHtmlLine]
  simp only [trimTrailing_eq]
  by_cases hc : removeTrailingWs out = [] <;> simp [hc]

/-- Claim C9: `TrimHtmlWhitespace` is idempotent on normalized text - on any
string with no leading whitespace and every whitespace run already a single
space, running it with leading trimming on an empty buffer returns the string
unchanged. -/
theorem trimHtmlWhitespace_idempotent (t : List Char) (h : NormalizedText t = true) :
    TrimHtmlWhitespace t true [] = t := by
  rw [NormalizedText.eq_def, Bool.and_eq_true] at h
  obtain ⟨hhead, hrun⟩ := h
  rw [TrimHtmlWhitespace, if_pos rfl, List.nil_append]
  cases t with
  | nil => rw [List.dropWhile_nil, trimBody_nil]
  | cons c t' =>
      have hc : isspace c = false := by
        have h2 : (!isspace c) = true := hhead
        simpa using h2
      rw [List.dropWhile_cons, if_neg (by simp [hc])]
      exact trimBody_normalized _ hrun

/-- Claim C9, witness: the idempotence statement applied to the normalized
string `"a b "`. -/
theorem trimHtmlWhitespace_idempotent_witness :
    TrimHtmlWhitespace ['a', ' ', 'b', ' '] true [] = ['a', ' ', 'b', ' '] :=
  trimHtmlWhitespace_idempotent ['a', ' ', 'b', ' '] (by decide)

/-! ## Helper lemmas: inert trees leave the sequence unchanged -/

theorem inert_walkList (cs : List GumboNode)
    (IH : ∀ c ∈ cs, inert c = true → ∀ s, GumboTreeToHtmlSections c s = s)
    (hch : inertList cs = true) : ∀ s, childrenToHtmlSections cs s = s := by
  induction cs with
  | nil => intro s; rfl
  | cons c cs ih =>
      have he : inertList (c :: cs) = (inert c && inertList cs) := rfl
      rw [he, Bool.and_eq_true] at hch
      intro s
      have h2 : childrenToHtmlSections (c :: cs) s
          = childrenToHtmlSections cs (GumboTreeToHtmlSections c s) := rfl
      rw [h2, IH c (by simp) hch.1 s,
        ih (fun c' hc' hi s' => IH c' (by simp [hc']) hi s') hch.2 s]

theorem inert_walk : ∀ n, inert n = true → ∀ s, GumboTreeToHtmlSections n s = s := by
  intro n
  induction n using GumboNode.recOnMem with
  | he tag attrs children IH =>
      intro hin s
      have heq : inert (.element tag attrs children) = (inertTag tag && inertList children) := rfl
      rw [heq, Bool.and_eq_true] at hin
      obtain ⟨htag, hch⟩ := hin
      have hwalk : GumboTreeToHtmlSections (.element tag attrs children) s
          = postfixStep tag attrs ((prefixStep tag s).length - 1)
              (childrenToHtmlSections children (prefixStep tag s)) := rfl
      have hpre : prefixStep tag s = s := by
        cases tag <;> first | rfl | (simp [inertTag] at htag)
      rw [hwalk, hpre, inert_walkList children (fun c hc hi s' => IH c hc hi s') hch s]
      cases tag <;> first | rfl | (simp [inertTag] at htag)
  | ht t =>
      intro hin
      exact absurd (show (false : Bool) = true from hin) (by simp)
  | ho => intro _ s; rfl

/-! ## Helper lemmas: anchor-free subtrees preserve links and length -/

theorem getD_eq (s : List HtmlSection) (i : Nat) :
    s.getD i emptySection = (s[i]?).getD emptySection :=
  List.getD_eq_getElem?_getD s i emptySection

theorem link_modifyBack (f : HtmlSection → HtmlSection)
    (hf : ∀ sec, (f sec).link = sec.link) (s : List HtmlSection) (h : s ≠ []) (i : Nat) :
    ((modifyBack f s).getD i emptySection).link = (s.getD i emptySection).link := by
  have hpos := List.length_pos.mpr h
  rw [getD_eq, getD_eq]
  by_cases h1 : i + 1 < s.length
  · rw [getElem?_modifyBack f s i h1]
  · by_cases h2 : i = s.length - 1
    · subst h2
      have hx : (modifyBack f s)[s.length - 1]? = some (f (backD s)) := by
        rw [modifyBack, show s.length - 1 = s.dropLast.length by simp [List.length_dropLast],
          List.getElem?_concat_length]
      have hy : s[s.length - 1]? = some (backD s) := by
        rw [backD, ← List.getLast?_eq_getElem?, List.getLast?_eq_getLast _ h]
        rfl
      rw [hx, hy]
      simp [hf]
    · have h3 : s.length ≤ i := by omega
      have hx : (modifyBack f s)[i]? = none := by
        apply List.getElem?_eq_none
        rw [length_modifyBack f s h]
        exact h3
      have hy : s[i]? = none := List.getElem?_eq_none h3
      rw [hx, hy]

theorem modifyBack_links (f : HtmlSection → HtmlSection)
    (hf : ∀ sec, (f sec).link = sec.link) (s : List HtmlSection) (h : s ≠ []) :
    (modifyBack f s).length = s.length ∧ modifyBack f s ≠ [] ∧
      ∀ i, ((modifyBack f s).getD i emptySection).link = (s.getD i emptySection).link :=
  ⟨length_modifyBack f s h, modifyBack_ne_nil f s, fun i => link_modifyBack f hf s h i⟩

theorem prefixStep_links (tag : GumboTag) (htag : tag ≠ .A) (s : List HtmlSection)
    (h : s ≠ []) :
    (prefixStep tag s).length = s.length ∧ prefixStep tag s ≠ [] ∧
      ∀ i, ((prefixStep tag s).getD i emptySection).link = (s.getD i emptySection).link := by
  cases tag <;>
    first
    | (exact absurd rfl htag)
    | (exact modifyBack_links
        (fun sec => { sec with text := StartHtmlLine parBreak sec.text })
        (fun sec => rfl) s h)
    | (exact ⟨rfl, h, fun i => rfl⟩)

theorem postfixStep_links (tag : GumboTag) (htag : tag ≠ .A)
    (attrs : List (List Char × List Char)) (ns : Nat) (s : List HtmlSection)
    (h : s ≠ []) :
    (postfixStep tag attrs ns s).length = s.length ∧ postfixStep tag attrs ns s ≠ [] ∧
      ∀ i, ((postfixStep tag attrs ns s).getD i emptySection).link
        = (s.getD i emptySection).link := by
  cases tag <;>
    first
    | (exact absurd rfl htag)
    | (exact modifyBack_links
        (fun sec => { sec with text := sec.text ++ parBreak })
        (fun sec => rfl) s h)
    | (exact modifyBack_links
        (fun sec => { sec with text := sec.text ++ lineBreak })
        (fun sec => rfl) s h)
    | (exact ⟨rfl, h, fun i => rfl⟩)

theorem anchorFree_walkList_aux (cs : List GumboNode)
    (IH : ∀ c ∈ cs, anchorFree c = true → ∀ s, s ≠ [] →
      (GumboTreeToHtmlSections c s).length = s.length ∧
      GumboTreeToHtmlSections c s ≠ [] ∧
      ∀ i, ((GumboTreeToHtmlSections c s).getD i emptySection).link
        = (s.getD i emptySection).link)
    (hall : anchorFreeList cs = true) : ∀ s, s ≠ [] →
      (childrenToHtmlSections cs s).length = s.length ∧
      childrenToHtmlSections cs s ≠ [] ∧
      ∀ i, ((childrenToHtmlSections cs s).getD i emptySection).link
        = (s.getD i emptySection).link := by
  induction cs with
  | nil => intro s h; exact ⟨rfl, h, fun i => rfl⟩
  | cons c cs ih =>
      have he : anchorFreeList (c :: cs) = (anchorFree c && anchorFreeList cs) := rfl
      rw [he, Bool.and_eq_true] at hall
      intro s h
      obtain ⟨h1, h2, h3⟩ := IH c (by simp) hall.1 s h
      obtain ⟨g1, g2, g3⟩ := ih (fun c' hc' => IH c' (by simp [hc'])) hall.2
        (GumboTreeToHtmlSections c s) h2
      have hstep : childrenToHtmlSections (c :: cs) s
          = childrenToHtmlSections cs (GumboTreeToHtmlSections c s) := rfl
      refine ⟨?_, ?_, ?_⟩
      · rw [hstep, g1, h1]
      · rw [hstep]; exact g2
      · intro i
        rw [hstep, g3 i, h3 i]

theorem anchorFree_walk : ∀ n, anchorFree n = true → ∀ s, s ≠ [] →
    (GumboTreeToHtmlSections n s).length = s.length ∧
    GumboTreeToHtmlSections n s ≠ [] ∧
    ∀ i, ((GumboTreeToHtmlSections n s).getD i emptySection).link
      = (s.getD i emptySection).link := by
  intro n
  induction n using GumboNode.recOnMem with
  | he tag attrs children IH =>
      intro haf s h
      have heq : anchorFree (.element tag attrs children)
          = (!(tag = .A : Bool) && anchorFreeList children) := rfl
      rw [heq, Bool.and_eq_true] at haf
      obtain ⟨htag, hch⟩ := haf
      have htag' : tag ≠ .A := by simpa using htag
      have hwalk : GumboTreeToHtmlSections (.element tag attrs children) s
          = postfixStep tag attrs ((prefixStep tag s).length - 1)
              (childrenToHtmlSections children (prefixStep tag s)) := rfl
      obtain ⟨p1, p2, p3⟩ := prefixStep_links tag htag' s h
      obtain ⟨c1, c2, c3⟩ := anchorFree_walkList_aux children IH hch (prefixStep tag s) p2
      obtain ⟨q1, q2, q3⟩ := postfixStep_links tag htag' attrs
        ((prefixStep tag s).length - 1) (childrenToHtmlSections children (prefixStep tag s)) c2
      refine ⟨?_, ?_, ?_⟩
      · rw [hwalk, q1, c1, p1]
      · rw [hwalk]; exact q2
      · intro i
        rw [hwalk, q3 i, c3 i, p3 i]
  | ht t =>
      intro _ s h
      have hw : GumboTreeToHtmlSections (.text t) s
          = modifyBack (fun sec =>
              { sec with
                text := TrimHtmlWhitespace t (ShouldTrimLeadingWhitespace s) sec.text }) s := rfl
      exact ⟨by rw [hw]; exact length_modifyBack _ _ h,
        by rw [hw]; exact modifyBack_ne_nil _ _,
        fun i => by
          rw [hw]
          exact link_modifyBack
            (fun sec =>
              { sec with
                text := TrimHtmlWhitespace t (ShouldTrimLeadingWhitespace s) sec.text })
            (fun sec => rfl) s h i⟩
  | ho => intro _ s h; exact ⟨rfl, h, fun i => rfl⟩

/-- Claim C3, counterexample: the document tree for `<p></p>` contains no
text content at all, yet `ParseHtml` returns a non-empty sequence (one
section whose text is the paragraph's trailing `"\n\n"`). -/
theorem no_text_nonzero_sections :
    containsText pEmptyTree = false ∧ ParseHtml pEmptyTree ≠ [] := by
  constructor
  · rfl
  · simp [ParseHtml, pEmptyTree, GumboTreeToHtmlSections, childrenToHtmlSections,
      prefixStep, postfixStep, modifyBack, backD, StartHtmlLine, trimTrailing,
      backChar, isspace, emptySection, parBreak]

/-- Claim C3, amended: for every input whose document tree contains no text
content and also no anchor, paragraph, heading, horizontal-rule or line-break
element (in particular, for the empty input string's tree), `ParseHtml`
returns a zero-length Section sequence. -/
theorem inert_tree_zero_sections (root : GumboNode) (h : inert root = true) :
    ParseHtml root = [] := by
  rw [ParseHtml]
  simp only [inert_walk root h [emptySection]]
  rfl

/-- Claim C3, witness: the amended statement applied to the empty input
string's document tree. -/
theorem inert_tree_zero_sections_witness : ParseHtml emptyInputTree = [] :=
  inert_tree_zero_sections emptyInputTree (by rfl)

/-- Claim C6: during the walk the sequence grows by exactly `newSections`,
which by definition counts one section at anchor start (and only when the
current last section's text is non-empty), one at anchor end, and nothing for
any other tag or node kind; and every section other than the last one present
at entry is left exactly in place (no section is removed). -/
theorem sections_appended_only_at_anchors (n : GumboNode) (s : List HtmlSection)
    (h : s ≠ []) :
    (GumboTreeToHtmlSections n s).length = s.length + newSections n s ∧
      ∀ i, i + 1 < s.length → (GumboTreeToHtmlSections n s)[i]? = s[i]? := by
  obtain ⟨_, h2, h3⟩ := walk_master n s h
  exact ⟨h2, h3⟩

/-- Claim C6, witness: the statement applied to the anchor example tree and
the seed sequence. -/
theorem sections_appended_only_at_anchors_witness :
    (GumboTreeToHtmlSections anchorExampleTree [emptySection]).length
        = ([emptySection] : List HtmlSection).length
          + newSections anchorExampleTree [emptySection] ∧
      ∀ i, i + 1 < ([emptySection] : List HtmlSection).length →
        (GumboTreeToHtmlSections anchorExampleTree [emptySection])[i]?
          = ([emptySection] : List HtmlSection)[i]? :=
  sections_appended_only_at_anchors anchorExampleTree [emptySection] (by simp)

/-- Claim C8: an anchor element with no `href` attribute is processed with no
error: its postfix action records no link anywhere (the result is exactly the
children's result with one fresh empty section appended), and when the
children contain no nested anchor, the link of the section recorded for the
anchor (index `node_section`) is left exactly as it was before the children
ran - in particular it stays empty. -/
theorem anchor_without_href (attrs : List (List Char × List Char))
    (children : List GumboNode) (s : List HtmlSection) (h : s ≠ [])
    (hh : gumbo_get_attribute attrs hrefName = none) :
    GumboTreeToHtmlSections (.element .A attrs children) s
        = childrenToHtmlSections children (prefixStep .A s) ++ [emptySection] ∧
      (anchorFreeList children = true →
        ((GumboTreeToHtmlSections (.element .A attrs children) s).getD
            ((prefixStep .A s).length - 1) emptySection).link
          = ((prefixStep .A s).getD ((prefixStep .A s).length - 1) emptySection).link) := by
  have hp2 : prefixStep .A s ≠ [] := prefixStep_ne_nil .A s h
  have hwalk : GumboTreeToHtmlSections (.element .A attrs children) s
      = postfixStep .A attrs ((prefixStep .A s).length - 1)
          (childrenToHtmlSections children (prefixStep .A s)) := rfl
  have hpost : postfixStep .A attrs ((prefixStep .A s).length - 1)
      (childrenToHtmlSections children (prefixStep .A s))
      = childrenToHtmlSections children (prefixStep .A s) ++ [emptySection] := by
    simp only [postfixStep, hh]
  refine ⟨by rw [hwalk, hpost], ?_⟩
  intro hch
  obtain ⟨c1, c2, c3⟩ := anchorFree_walkList_aux children
    (fun c _ hc s' hs' => anchorFree_walk c hc s' hs') hch (prefixStep .A s) hp2
  rw [hwalk, hpost]
  have hlt : (prefixStep .A s).length - 1
      < (childrenToHtmlSections children (prefixStep .A s)).length := by
    rw [c1]
    have := List.length_pos.mpr hp2
    omega
  rw [getD_eq, List.getElem?_append, if_pos hlt, ← getD_eq, c3]

/-- Claim C8, witness: an anchor with one non-`href` attribute and a text
child, starting from the seed sequence. -/
theorem anchor_without_href_witness :
    GumboTreeToHtmlSections (.element .A [(['x'], ['y'])] [.text ['h', 'i']]) [emptySection]
        = childrenToHtmlSections [.text ['h', 'i']] (prefixStep .A [emptySection])
            ++ [emptySection] ∧
      (anchorFreeList [.text ['h', 'i']] = true →
        ((GumboTreeToHtmlSections (.element .A [(['x'], ['y'])] [.text ['h', 'i']])
              [emptySection]).getD
            ((prefixStep .A [emptySection]).length - 1) emptySection).link
          = ((prefixStep .A [emptySection]).getD
              ((prefixStep .A [emptySection]).length - 1) emptySection).link) :=
  anchor_without_href [(['x'], ['y'])] [.text ['h', 'i']] [emptySection]
    (by simp) (by decide)

/-- Claim C10: for every node and non-empty section sequence the walk leaves
the sequence non-empty and never shortens it; in particular the final prune
in `ParseHtml` always acts on a sequence of length at least one. -/
theorem walk_preserves_nonempty (n : GumboNode) (s : List HtmlSection) (h : s ≠ []) :
    GumboTreeToHtmlSections n s ≠ [] ∧ s.length ≤ (GumboTreeToHtmlSections n s).length := by
  obtain ⟨h1, h2, _⟩ := walk_master n s h
  exact ⟨h1, by omega⟩

/-- Claim C10, witness: the statement applied to the `<p>hi</p>` tree and the
seed sequence `ParseHtml` uses. -/
theorem walk_preserves_nonempty_witness :
    GumboTreeToHtmlSections pHiTree [emptySection] ≠ [] ∧
      ([emptySection] : List HtmlSection).length
        ≤ (GumboTreeToHtmlSections pHiTree [emptySection]).length :=
  walk_preserves_nonempty pHiTree [emptySection] (by simp)

end FlatUI
